import Mathlib

/-!
Shallow embedding of `src/pkg/src/chemiverse/formula/molecular.py`
(class `MolecularFormula`: construction, LaTeX rendering, IUPAC sorting),
together with a verification of its specification.

Python features are modelled as follows:

* `dict` (Python ≥ 3.7, insertion ordered) → association list; assignment
  `d[k] = v` (`dictInsert`) updates in place, keeping the position of an
  existing key, and appends new keys.
* raised exceptions → `Except PyErr`; `KeyError` (the spec's
  `UnknownElement`) and `ValueError` (the spec's `InvalidSortMethod`).
* the periodic-table module constants `_Z_TO_SYMBOL`, `_SYMBOL_TO_Z` and
  `_Z_TO_EN` (produced by the external collaborator
  `scicoda.atom.periodic_table()`) → an `ElementRef` parameter.
* `float` electronegativity values → `Option ℚ`: a `NaN` table entry is
  `none`, and `float("inf")` used by `en_sorter` is `⊤` in `WithTop ℚ`.
  Pauling electronegativities are finite decimals, so `ℚ` is faithful to
  every comparison performed.
* Python's stable `sorted` → `List.insertionSort`, which is also stable;
  sortedness together with stability determines the output of any stable
  sort uniquely, so this is behaviourally exact.
-/

namespace Chemiverse

/-- Python's `str.strip()`: remove leading and trailing whitespace. -/
def pyStrip (s : String) : String :=
  ⟨((s.data.dropWhile Char.isWhitespace).reverse.dropWhile Char.isWhitespace).reverse⟩

/-- Python's `str.capitalize()`: first character upper-cased, the rest lower-cased. -/
def pyCapitalize (s : String) : String :=
  match s.data with
  | [] => ⟨[]⟩
  | c :: cs => ⟨c.toUpper :: cs.map Char.toLower⟩

/-- The key normalisation `key.strip().capitalize()` applied by
`MolecularFormula.__init__` to string keys. -/
def pyNormalize (s : String) : String := pyCapitalize (pyStrip s)

/-- Python's `<=` on strings: lexicographic comparison of code points. -/
def pyLeB : List Char → List Char → Bool
  | [], _ => true
  | _ :: _, [] => false
  | a :: as, b :: bs =>
    if a.toNat < b.toNat then true
    else if b.toNat < a.toNat then false
    else pyLeB as bs

/-- Python's `<=` on strings, as a decidable relation. -/
def pyStrLe (a b : String) : Prop := pyLeB a.data b.data = true

instance : DecidableRel pyStrLe := fun a b =>
  inferInstanceAs (Decidable (pyLeB a.data b.data = true))

/-- The periodic-table reference (external collaborator): the module-level
dictionaries `_Z_TO_SYMBOL`, `_SYMBOL_TO_Z` and `_Z_TO_EN`.  A missing
dictionary entry is `none` (a lookup raises `KeyError`); in `z_to_en`, an
inner `none` is a `NaN` electronegativity entry. -/
structure ElementRef where
  z_to_symbol : Int → Option String
  symbol_to_z : String → Option Int
  z_to_en : Int → Option (Option ℚ)

/-- The Python exceptions raised by the module: `KeyError` is the spec's
`UnknownElement`, `ValueError` the spec's `InvalidSortMethod`. -/
inductive PyErr
  | keyError
  | valueError
  deriving DecidableEq

instance {ε α : Type} [DecidableEq ε] [DecidableEq α] : DecidableEq (Except ε α) := fun a b =>
  match a, b with
  | Except.ok x, Except.ok y => decidable_of_iff (x = y) (by simp)
  | Except.error x, Except.error y => decidable_of_iff (x = y) (by simp)
  | Except.ok _, Except.error _ => isFalse (by simp)
  | Except.error _, Except.ok _ => isFalse (by simp)

/-- A construction key: Python `int | str`. -/
inductive Key
  | int (z : Int)
  | str (s : String)
  deriving DecidableEq

/-- The state of `MolecularFormula`: the two parallel dictionaries
`_z_to_count` and `_symbol_to_count`, plus `_charge`. -/
structure MolecularFormula where
  z_to_count : List (Int × Int)
  symbol_to_count : List (String × Int)
  charge : Int
  deriving DecidableEq

/-- Python dictionary assignment `d[k] = v`: replaces the value at an
existing key in place, otherwise appends the new binding. -/
def dictInsert {κ β : Type} [DecidableEq κ] : List (κ × β) → κ → β → List (κ × β)
  | [], k, v => [(k, v)]
  | p :: rest, k, v => if p.1 = k then (p.1, v) :: rest else p :: dictInsert rest k v

/-- Python dictionary lookup `d[k]` (`none` models a raised `KeyError`). -/
def dictGet {κ β : Type} [DecidableEq κ] : List (κ × β) → κ → Option β
  | [], _ => none
  | p :: rest, k => if p.1 = k then some p.2 else dictGet rest k

/-- One iteration of the `for key, count in atom_count.items()` loop of
`MolecularFormula.__init__`, acting on the pair of dictionaries
`(_z_to_count, _symbol_to_count)`. -/
def initStep (ref : ElementRef) (st : List (Int × Int) × List (String × Int))
    (e : Key × Int) : Except PyErr (List (Int × Int) × List (String × Int)) :=
  match e.1 with
  | Key.int z =>
    match ref.z_to_symbol z with
    | none => Except.error PyErr.keyError
    | some symbol => Except.ok (dictInsert st.1 z e.2, dictInsert st.2 symbol e.2)
  | Key.str s =>
    let symbol := pyNormalize s
    match ref.symbol_to_z symbol with
    | none => Except.error PyErr.keyError
    | some z => Except.ok (dictInsert st.1 z e.2, dictInsert st.2 symbol e.2)

/-- The `for` loop of `MolecularFormula.__init__`: run `initStep` over the
entries in order, propagating a raised exception. -/
def initLoop (ref : ElementRef) :
    List (Key × Int) → List (Int × Int) × List (String × Int) →
      Except PyErr (List (Int × Int) × List (String × Int))
  | [], st => Except.ok st
  | e :: rest, st =>
    match initStep ref st e with
    | Except.error err => Except.error err
    | Except.ok st' => initLoop ref rest st'

/-- `MolecularFormula.__init__`: normalise every key through the element
reference, building both dictionary views; raises (`Except.error`) on the
first unresolvable key. -/
def MolecularFormula.init (ref : ElementRef) (atom_count : List (Key × Int))
    (charge : Int) : Except PyErr MolecularFormula :=
  (initLoop ref atom_count ([], [])).map fun st =>
    { z_to_count := st.1, symbol_to_count := st.2, charge := charge }

/-- The sign glyph the source emits for a negative charge: the bytes in the
file are the UTF-8 mojibake `â + euro sign + left double quote`
(U+00E2, U+20AC, U+201C), not an en dash. -/
def minusGlyph : String := "\u00E2\u20AC\u201C"

/-- The `latex` property: per-element parts (symbol, plus
`\textsubscript{count}` when the count is not `1`), then a
`\textsuperscript{...}` part iff the charge is nonzero. -/
def MolecularFormula.latex (f : MolecularFormula) : String :=
  let parts := f.symbol_to_count.map fun p =>
    if p.2 = 1 then p.1
    else p.1 ++ "\\textsubscript\x7b" ++ toString p.2 ++ "\x7d"
  let parts :=
    if f.charge ≠ 0 then
      let abs_charge := f.charge.natAbs
      let charge_str := if abs_charge ≠ 1 then toString abs_charge else ""
      parts ++ ["\\textsuperscript\x7b" ++ charge_str ++
        (if f.charge > 0 then "+" else minusGlyph) ++ "\x7d"]
    else parts
  String.join parts

/-- The local function `en_sorter` of `_sort_iupac`: sort key of a symbol,
`float("inf")` (here `⊤`) for a `NaN` electronegativity.  `none` models a
raised `KeyError` from either dictionary lookup. -/
def en_sorter (ref : ElementRef) (symbol : String) : Option (WithTop ℚ) :=
  match ref.symbol_to_z symbol with
  | none => none
  | some z =>
    match ref.z_to_en z with
    | none => none
    | some en =>
      some (match en with
        | none => (⊤ : WithTop ℚ)
        | some q => (q : WithTop ℚ))

/-- The key precomputation performed by `sorted(counts.keys(), key=en_sorter)`:
`en_sorter` is evaluated on every element in list order, and a raised
`KeyError` propagates. -/
def tagEn (ref : ElementRef) : List String → Option (List (String × WithTop ℚ))
  | [] => some []
  | s :: rest =>
    match en_sorter ref s with
    | none => none
    | some k => (tagEn ref rest).map fun ps => (s, k) :: ps

/-- Evaluation of the dictionary comprehension
`{symbol: counts[symbol] for symbol in sorted_elements}`: the indexing
`counts[symbol]` raises `KeyError` (modelled by `none`) on a missing key. -/
def getPairs (counts : List (String × Int)) : List String → Option (List (String × Int))
  | [] => some []
  | s :: rest =>
    match dictGet counts s with
    | none => none
    | some c => (getPairs counts rest).map fun ps => (s, c) :: ps

/-- The tail of `_sort_iupac`: the dictionary comprehension
`{symbol: counts[symbol] for symbol in sorted_elements}` followed by the
constructor call `MolecularFormula(formula, charge=...)`. -/
def mkSorted (ref : ElementRef) (counts : List (String × Int))
    (sorted_elements : List String) (charge : Int) : Except PyErr MolecularFormula :=
  match getPairs counts sorted_elements with
  | none => Except.error PyErr.keyError
  | some pairs => MolecularFormula.init ref (pairs.map fun p => (Key.str p.1, p.2)) charge

/-- `MolecularFormula._sort_iupac`.  Note the carbon branch: the source
always writes `["C", "H"] + sorted(...)` and then indexes `counts["H"]`,
whether or not hydrogen is present. -/
def MolecularFormula.sort_iupac (ref : ElementRef) (f : MolecularFormula) :
    Except PyErr MolecularFormula :=
  let counts := f.symbol_to_count
  let keys := counts.map Prod.fst
  if "C" ∈ keys then
    let others := keys.filter fun e => decide (e ≠ "C") && decide (e ≠ "H")
    let sorted_elements := "C" :: "H" :: others.insertionSort pyStrLe
    mkSorted ref counts sorted_elements f.charge
  else
    match tagEn ref keys with
    | none => Except.error PyErr.keyError
    | some tagged =>
      let sorted_elements :=
        (tagged.insertionSort fun a b => a.2 ≤ b.2).map Prod.fst
      mkSorted ref counts sorted_elements f.charge

/-- `MolecularFormula.sort`: dispatch on the method selector; any value other
than `"iupac"` raises `ValueError`. -/
def MolecularFormula.sort (ref : ElementRef) (f : MolecularFormula)
    (method : String) : Except PyErr MolecularFormula :=
  if method = "iupac" then f.sort_iupac ref else Except.error PyErr.valueError

/-- The module-level convenience builder `from_counts` (construct, then
conditionally sort; Python's `if sort:` is falsy on `None` and `""`). -/
def from_counts (ref : ElementRef) (counts : List (Key × Int)) (charge : Int)
    (sort : Option String) : Except PyErr MolecularFormula :=
  (MolecularFormula.init ref counts charge).bind fun formula =>
    match sort with
    | none => Except.ok formula
    | some m => if m = "" then Except.ok formula else formula.sort ref m

/-- The electronegativity sort key of a symbol, as a total function (`⊤` both
for a `NaN` entry and for an unresolvable symbol); agrees with `en_sorter`
whenever the latter does not raise. -/
def enKey (ref : ElementRef) (s : String) : WithTop ℚ := (en_sorter ref s).getD ⊤

/-- Total version of the dictionary lookup `counts[s]` (default `0`);
agrees with `dictGet` on present keys. -/
def get0 (counts : List (String × Int)) (s : String) : Int := (dictGet counts s).getD 0

/-- A construction key that does not resolve through the element reference
(after normalisation, for string keys). -/
def badKey (ref : ElementRef) : Key → Prop
  | Key.int z => ref.z_to_symbol z = none
  | Key.str s => ref.symbol_to_z (pyNormalize s) = none

/-- A symbol that resolves consistently through the reference and is fixed
by key normalisation (the §3 invariant for elements of a valid `Formula`). -/
def goodSym (ref : ElementRef) (s : String) : Prop :=
  pyNormalize s = s ∧
  ∃ z, ref.symbol_to_z s = some z ∧ ref.z_to_symbol z = some s ∧
    (ref.z_to_en z).isSome = true

/-- The invariant of a validly constructed `Formula`: distinct symbol keys,
each satisfying `goodSym`. -/
def MolecularFormula.WF (ref : ElementRef) (f : MolecularFormula) : Prop :=
  (f.symbol_to_count.map Prod.fst).Nodup ∧
    ∀ p ∈ f.symbol_to_count, goodSym ref p.1

/-- `resolvesTo ref k z s`: the construction key `k` resolves (after
normalisation, for string keys) to atomic number `z` and stored symbol `s`. -/
def resolvesTo (ref : ElementRef) : Key → Int → String → Prop
  | Key.int z', z, s => z' = z ∧ ref.z_to_symbol z = some s
  | Key.str t, z, s => pyNormalize t = s ∧ ref.symbol_to_z s = some z

/-- A small concrete periodic-table instance used to exercise the
definitions (electronegativities scaled by 100; helium's is a `NaN` entry). -/
def demoTable : List (Int × String × Option ℚ) :=
  [(1, "H", some 220), (2, "He", none), (6, "C", some 255),
   (7, "N", some 304), (8, "O", some 344), (9, "F", some 398),
   (11, "Na", some 93), (16, "S", some 258), (17, "Cl", some 316)]

/-- The `ElementRef` views of `demoTable`. -/
def demoRef : ElementRef where
  z_to_symbol := fun z => (demoTable.find? fun row => row.1 == z).map fun row => row.2.1
  symbol_to_z := fun s => (demoTable.find? fun row => row.2.1 == s).map fun row => row.1
  z_to_en := fun z => (demoTable.find? fun row => row.1 == z).map fun row => row.2.2

/-- Concrete fixture: hydroxide-like composition `{O: 1, H: 2, He: 1}` with
charge `0` — carbon-free, with a `NaN`-electronegativity element. -/
def fDemoWater : MolecularFormula :=
  { z_to_count := [(8, 1), (1, 2), (2, 1)],
    symbol_to_count := [("O", 1), ("H", 2), ("He", 1)],
    charge := 0 }

/-- `fDemoWater` after an `"iupac"` sort (ascending electronegativity,
helium's undefined value last). -/
def gDemoWater : MolecularFormula :=
  { z_to_count := [(1, 2), (8, 1), (2, 1)],
    symbol_to_count := [("H", 2), ("O", 1), ("He", 1)],
    charge := 0 }

/-- Concrete fixture: methanol-like composition `{C: 1, H: 4, O: 1}`. -/
def fDemoCarbon : MolecularFormula :=
  { z_to_count := [(8, 1), (1, 4), (6, 1)],
    symbol_to_count := [("O", 1), ("H", 4), ("C", 1)],
    charge := 0 }

/-- `fDemoCarbon` after an `"iupac"` sort (carbon, hydrogen, rest
alphabetical). -/
def gDemoCarbon : MolecularFormula :=
  { z_to_count := [(6, 1), (1, 4), (8, 1)],
    symbol_to_count := [("C", 1), ("H", 4), ("O", 1)],
    charge := 0 }

/-! ### Basic properties of the string order and the dictionary model -/

lemma pyLeB_head_le {a b : Char} {as bs : List Char}
    (h : pyLeB (a :: as) (b :: bs) = true) : a.toNat ≤ b.toNat := by
  by_cases hab : a.toNat < b.toNat
  · omega
  · by_cases hba : b.toNat < a.toNat
    · simp [pyLeB, hab, hba] at h
    · omega

lemma pyLeB_total : ∀ a b : List Char, pyLeB a b = true ∨ pyLeB b a = true
  | [], _ => Or.inl rfl
  | _ :: _, [] => Or.inr rfl
  | a :: as, b :: bs => by
    rcases Nat.lt_trichotomy a.toNat b.toNat with h | h | h
    · left; simp [pyLeB, h]
    · have h1 : ¬ a.toNat < b.toNat := by omega
      have h2 : ¬ b.toNat < a.toNat := by omega
      simpa [pyLeB, h1, h2] using pyLeB_total as bs
    · right; simp [pyLeB, h]

lemma pyLeB_trans : ∀ {a b c : List Char},
    pyLeB a b = true → pyLeB b c = true → pyLeB a c = true
  | [], _, _, _, _ => rfl
  | _ :: _, [], _, h, _ => by simp [pyLeB] at h
  | _ :: _, _ :: _, [], _, h => by simp [pyLeB] at h
  | a :: as, b :: bs, c :: cs, h1, h2 => by
    have hab := pyLeB_head_le h1
    have hbc := pyLeB_head_le h2
    by_cases hac : a.toNat < c.toNat
    · simp [pyLeB, hac]
    · have he1 : ¬ a.toNat < b.toNat := by omega
      have he2 : ¬ b.toNat < a.toNat := by omega
      have he3 : ¬ b.toNat < c.toNat := by omega
      have he4 : ¬ c.toNat < b.toNat := by omega
      have hca : ¬ c.toNat < a.toNat := by omega
      have t1 : pyLeB as bs = true := by simpa [pyLeB, he1, he2] using h1
      have t2 : pyLeB bs cs = true := by simpa [pyLeB, he3, he4] using h2
      simpa [pyLeB, hac, hca] using pyLeB_trans t1 t2

instance : IsTotal String pyStrLe := ⟨fun a b => pyLeB_total a.data b.data⟩

instance : IsTrans String pyStrLe := ⟨fun _ _ _ => pyLeB_trans⟩

instance : IsTotal (String × WithTop ℚ) (fun a b => a.2 ≤ b.2) :=
  ⟨fun a b => le_total a.2 b.2⟩

instance : IsTrans (String × WithTop ℚ) (fun a b => a.2 ≤ b.2) :=
  ⟨fun _ _ _ h1 h2 => le_trans h1 h2⟩

lemma dictGet_of_not_mem {κ β : Type} [DecidableEq κ] {d : List (κ × β)} {k : κ}
    (h : k ∉ d.map Prod.fst) : dictGet d k = none := by
  induction d with
  | nil => rfl
  | cons p rest ih =>
    simp only [List.map_cons, List.mem_cons] at h
    push_neg at h
    rw [dictGet, if_neg fun hh => h.1 hh.symm]
    exact ih h.2

lemma dictGet_mem {κ β : Type} [DecidableEq κ] {d : List (κ × β)} {p : κ × β}
    (hnd : (d.map Prod.fst).Nodup) (hp : p ∈ d) : dictGet d p.1 = some p.2 := by
  induction d with
  | nil => simp at hp
  | cons q rest ih =>
    rw [List.map_cons, List.nodup_cons] at hnd
    rcases List.mem_cons.mp hp with h | h
    · subst h
      simp [dictGet]
    · have hq : q.1 ≠ p.1 := by
        intro he
        apply hnd.1
        rw [he]
        exact List.mem_map_of_mem Prod.fst h
      rw [dictGet, if_neg hq]
      exact ih hnd.2 h

lemma dictGet_isSome_of_mem {κ β : Type} [DecidableEq κ] {d : List (κ × β)} {k : κ}
    (h : k ∈ d.map Prod.fst) : (dictGet d k).isSome = true := by
  induction d with
  | nil => simp at h
  | cons q rest ih =>
    by_cases hq : q.1 = k
    · simp [dictGet, hq]
    · rw [dictGet, if_neg hq]
      rw [List.map_cons, List.mem_cons] at h
      rcases h with h' | h'
      · exact absurd h'.symm hq
      · exact ih h'

lemma dictInsert_of_not_mem {κ β : Type} [DecidableEq κ] {d : List (κ × β)} {k : κ}
    (v : β) (h : k ∉ d.map Prod.fst) : dictInsert d k v = d ++ [(k, v)] := by
  induction d with
  | nil => rfl
  | cons p rest ih =>
    simp only [List.map_cons, List.mem_cons] at h
    push_neg at h
    rw [dictInsert, if_neg fun hh => h.1 hh.symm, ih h.2]
    rfl

lemma dictInsert_of_mem {κ β : Type} [DecidableEq κ] {d : List (κ × β)} {k : κ} (v : β)
    (hnd : (d.map Prod.fst).Nodup) (h : k ∈ d.map Prod.fst) :
    dictInsert d k v = d.map fun p => if p.1 = k then (p.1, v) else p := by
  induction d with
  | nil => simp at h
  | cons q rest ih =>
    rw [List.map_cons] at h
    rw [List.map_cons, List.nodup_cons] at hnd
    by_cases hq : q.1 = k
    · have hrest : (rest.map fun p => if p.1 = k then (p.1, v) else p) = rest := by
        have he : ∀ p ∈ rest, (if p.1 = k then (p.1, v) else p) = p := by
          intro p hp
          have hne : p.1 ≠ k := by
            intro hpk
            apply hnd.1
            rw [hq, ← hpk]
            exact List.mem_map_of_mem Prod.fst hp
          rw [if_neg hne]
        calc (rest.map fun p => if p.1 = k then (p.1, v) else p)
            = rest.map id := List.map_congr_left he
          _ = rest := List.map_id rest
      rw [dictInsert, if_pos hq, List.map_cons, if_pos hq, hrest]
    · rcases List.mem_cons.mp h with h' | h'
      · exact absurd h'.symm hq
      · rw [dictInsert, if_neg hq, List.map_cons, if_neg hq, ih hnd.2 h']

lemma keys_dictInsert_of_mem {κ β : Type} [DecidableEq κ] {d : List (κ × β)} {k : κ} (v : β)
    (h : k ∈ d.map Prod.fst) : (dictInsert d k v).map Prod.fst = d.map Prod.fst := by
  induction d with
  | nil => simp at h
  | cons p rest ih =>
    rw [List.map_cons] at h
    by_cases hp : p.1 = k
    · rw [dictInsert, if_pos hp, List.map_cons, List.map_cons, hp]
    · rcases List.mem_cons.mp h with h' | h'
      · exact absurd h'.symm hp
      · rw [dictInsert, if_neg hp, List.map_cons, List.map_cons, ih h']

lemma keys_dictInsert_of_not_mem {κ β : Type} [DecidableEq κ] {d : List (κ × β)} {k : κ}
    (v : β) (h : k ∉ d.map Prod.fst) :
    (dictInsert d k v).map Prod.fst = d.map Prod.fst ++ [k] := by
  rw [dictInsert_of_not_mem v h, List.map_append]
  rfl

lemma nodup_keys_dictInsert {κ β : Type} [DecidableEq κ] {d : List (κ × β)} (k : κ) (v : β)
    (hnd : (d.map Prod.fst).Nodup) : ((dictInsert d k v).map Prod.fst).Nodup := by
  by_cases hk : k ∈ d.map Prod.fst
  · rwa [keys_dictInsert_of_mem v hk]
  · rw [keys_dictInsert_of_not_mem v hk]
    refine List.Nodup.append hnd (List.nodup_singleton k) ?dj
    intro a ha hak
    rw [List.mem_singleton] at hak
    exact hk (hak ▸ ha)

/-! ### Properties of construction -/

lemma initStep_error_eq {ref : ElementRef} {st : List (Int × Int) × List (String × Int)}
    {e : Key × Int} {x : PyErr} (h : initStep ref st e = Except.error x) :
    x = PyErr.keyError := by
  rcases e with ⟨k, c⟩
  cases k with
  | int z =>
    cases hz : ref.z_to_symbol z with
    | none =>
      simp only [initStep, hz, Except.error.injEq] at h
      exact h.symm
    | some s => simp [initStep, hz] at h
  | str s =>
    cases hz : ref.symbol_to_z (pyNormalize s) with
    | none =>
      simp only [initStep, hz, Except.error.injEq] at h
      exact h.symm
    | some z => simp [initStep, hz] at h

lemma initStep_of_bad {ref : ElementRef} {st : List (Int × Int) × List (String × Int)}
    {e : Key × Int} (h : badKey ref e.1) :
    initStep ref st e = Except.error PyErr.keyError := by
  rcases e with ⟨k, c⟩
  cases k with
  | int z =>
    simp only [badKey] at h
    simp [initStep, h]
  | str s =>
    simp only [badKey] at h
    simp [initStep, h]

lemma initStep_ok_not_bad {ref : ElementRef} {st st' : List (Int × Int) × List (String × Int)}
    {e : Key × Int} (h : initStep ref st e = Except.ok st') : ¬ badKey ref e.1 := by
  intro hb
  rw [initStep_of_bad hb] at h
  exact Except.noConfusion h

lemma initStep_ok_shape {ref : ElementRef} {st st' : List (Int × Int) × List (String × Int)}
    {e : Key × Int} (h : initStep ref st e = Except.ok st') :
    ∃ z sym, st' = (dictInsert st.1 z e.2, dictInsert st.2 sym e.2) := by
  rcases e with ⟨k, c⟩
  cases k with
  | int z =>
    cases hz : ref.z_to_symbol z with
    | none => simp [initStep, hz] at h
    | some s =>
      simp only [initStep, hz, Except.ok.injEq] at h
      exact ⟨z, s, h.symm⟩
  | str s =>
    cases hz : ref.symbol_to_z (pyNormalize s) with
    | none => simp [initStep, hz] at h
    | some z =>
      simp only [initStep, hz, Except.ok.injEq] at h
      exact ⟨z, pyNormalize s, h.symm⟩

lemma initLoop_error_of_bad (ref : ElementRef) (l : List (Key × Int)) :
    ∀ st : List (Int × Int) × List (String × Int),
      (∃ e ∈ l, badKey ref e.1) → initLoop ref l st = Except.error PyErr.keyError := by
  induction l with
  | nil =>
    intro st h
    simp at h
  | cons e rest ih =>
    intro st h
    cases hs : initStep ref st e with
    | error err =>
      simp only [initLoop, hs]
      rw [initStep_error_eq hs]
    | ok st' =>
      simp only [initLoop, hs]
      apply ih st'
      rcases h with ⟨e', he', hbad⟩
      rcases List.mem_cons.mp he' with rfl | hmem
      · exact absurd hbad (initStep_ok_not_bad hs)
      · exact ⟨e', hmem, hbad⟩

lemma initLoop_str_entries (ref : ElementRef) (pairs : List (String × Int)) :
    ∀ (zc : List (Int × Int)) (sc : List (String × Int)),
      (∀ p ∈ pairs, goodSym ref p.1) → (pairs.map Prod.fst).Nodup →
      (∀ p ∈ pairs, p.1 ∉ sc.map Prod.fst) →
      ∃ zc', initLoop ref (pairs.map fun p => (Key.str p.1, p.2)) (zc, sc) =
        Except.ok (zc', sc ++ pairs) := by
  induction pairs with
  | nil =>
    intro zc sc _ _ _
    exact ⟨zc, by simp [initLoop]⟩
  | cons p rest ih =>
    intro zc sc hgood hnd hdis
    obtain ⟨hnorm, z, hsz, _, _⟩ := hgood p (List.mem_cons_self p rest)
    have hstep : initStep ref (zc, sc) (Key.str p.1, p.2) =
        Except.ok (dictInsert zc z p.2, sc ++ [p]) := by
      simp only [initStep, hnorm, hsz]
      rw [dictInsert_of_not_mem p.2 (hdis p (List.mem_cons_self p rest))]
    have hnd' : (rest.map Prod.fst).Nodup := by
      rw [List.map_cons, List.nodup_cons] at hnd
      exact hnd.2
    have hdis' : ∀ q ∈ rest, q.1 ∉ (sc ++ [p]).map Prod.fst := by
      intro q hq hin
      rw [List.map_append, List.mem_append] at hin
      rcases hin with hin | hin
      · exact hdis q (List.mem_cons_of_mem p hq) hin
      · rw [List.map_cons, List.map_nil, List.mem_singleton] at hin
        rw [List.map_cons, List.nodup_cons] at hnd
        exact hnd.1 (hin ▸ List.mem_map_of_mem Prod.fst hq)
    obtain ⟨zc', hrec⟩ := ih (dictInsert zc z p.2) (sc ++ [p])
      (fun q hq => hgood q (List.mem_cons_of_mem p hq)) hnd' hdis'
    refine ⟨zc', ?eq⟩
    rw [List.map_cons]
    simp only [initLoop, hstep]
    rw [hrec, List.append_assoc, List.singleton_append]

lemma initLoop_nodup (ref : ElementRef) (l : List (Key × Int)) :
    ∀ st st' : List (Int × Int) × List (String × Int),
      initLoop ref l st = Except.ok st' →
      (st.1.map Prod.fst).Nodup → (st.2.map Prod.fst).Nodup →
      (st'.1.map Prod.fst).Nodup ∧ (st'.2.map Prod.fst).Nodup := by
  induction l with
  | nil =>
    intro st st' h h1 h2
    simp only [initLoop, Except.ok.injEq] at h
    exact h ▸ ⟨h1, h2⟩
  | cons e rest ih =>
    intro st st' h h1 h2
    cases hs : initStep ref st e with
    | error err => simp [initLoop, hs] at h
    | ok st1 =>
      simp only [initLoop, hs] at h
      obtain ⟨z, sym, hshape⟩ := initStep_ok_shape hs
      refine ih st1 st' h ?z ?s
      · rw [hshape]
        exact nodup_keys_dictInsert z e.2 h1
      · rw [hshape]
        exact nodup_keys_dictInsert sym e.2 h2

lemma init_nodup {ref : ElementRef} {l : List (Key × Int)} {charge : Int}
    {f : MolecularFormula} (h : MolecularFormula.init ref l charge = Except.ok f) :
    (f.z_to_count.map Prod.fst).Nodup ∧ (f.symbol_to_count.map Prod.fst).Nodup := by
  unfold MolecularFormula.init at h
  cases hl : initLoop ref l ([], []) with
  | error e =>
    rw [hl] at h
    exact Except.noConfusion h
  | ok st =>
    rw [hl] at h
    simp only [Except.map, Except.ok.injEq] at h
    obtain ⟨hz, hs⟩ := initLoop_nodup ref l ([], []) st hl (by simp) (by simp)
    rw [← h]
    exact ⟨hz, hs⟩

lemma initLoop_lockstep (ref : ElementRef) (entries : List (Int × String × Int)) :
    ∀ st : List (Int × Int) × List (String × Int),
      (∀ e ∈ entries, ref.z_to_symbol e.1 = some (pyNormalize e.2.1) ∧
        ref.symbol_to_z (pyNormalize e.2.1) = some e.1) →
      initLoop ref (entries.map fun e => (Key.int e.1, e.2.2)) st =
        initLoop ref (entries.map fun e => (Key.str e.2.1, e.2.2)) st := by
  induction entries with
  | nil =>
    intro st _
    rfl
  | cons e rest ih =>
    intro st h
    obtain ⟨h1, h2⟩ := h e (List.mem_cons_self e rest)
    have s1 : initStep ref st (Key.int e.1, e.2.2) =
        Except.ok (dictInsert st.1 e.1 e.2.2, dictInsert st.2 (pyNormalize e.2.1) e.2.2) := by
      simp [initStep, h1]
    have s2 : initStep ref st (Key.str e.2.1, e.2.2) =
        Except.ok (dictInsert st.1 e.1 e.2.2, dictInsert st.2 (pyNormalize e.2.1) e.2.2) := by
      simp [initStep, h2]
    rw [List.map_cons, List.map_cons]
    simp only [initLoop, s1, s2]
    exact ih _ fun q hq => h q (List.mem_cons_of_mem e hq)

/-! ### Stability of insertion sort with respect to a key function -/

lemma filter_orderedInsert {α κ : Type} [LinearOrder κ] (k : α → κ) (v : κ) (a : α)
    (l : List α) :
    ((l.orderedInsert (fun x y => k x ≤ k y) a).filter fun x => decide (k x = v)) =
      if k a = v then a :: l.filter (fun x => decide (k x = v))
      else l.filter fun x => decide (k x = v) := by
  induction l with
  | nil =>
    by_cases hav : k a = v
    · simp [List.orderedInsert, List.filter, hav]
    · simp [List.orderedInsert, List.filter, hav]
  | cons b l ih =>
    by_cases hab : k a ≤ k b
    · rw [List.orderedInsert, if_pos hab]
      by_cases hav : k a = v
      · simp [List.filter_cons, hav]
      · simp [List.filter_cons, hav]
    · rw [List.orderedInsert, if_neg hab]
      have hba : k b < k a := lt_of_not_le hab
      by_cases hav : k a = v
      · have hbv : k b ≠ v := by
          rw [← hav]
          exact ne_of_lt hba
        rw [if_pos hav] at ih ⊢
        simp [List.filter_cons, hbv, ih]
      · rw [if_neg hav] at ih ⊢
        by_cases hbvv : k b = v
        · simp [List.filter_cons, hbvv, ih]
        · simp [List.filter_cons, hbvv, ih]

lemma filter_insertionSort {α κ : Type} [LinearOrder κ] (k : α → κ) (v : κ) (l : List α) :
    ((l.insertionSort fun x y => k x ≤ k y).filter fun x => decide (k x = v)) =
      l.filter fun x => decide (k x = v) := by
  induction l with
  | nil => rfl
  | cons a l ih =>
    rw [List.insertionSort, filter_orderedInsert k v a]
    by_cases hav : k a = v
    · rw [if_pos hav, ih, List.filter_cons]
      simp [hav]
    · rw [if_neg hav, ih, List.filter_cons]
      simp [hav]

/-! ### Properties of the sorting pipeline -/

lemma en_sorter_of_good {ref : ElementRef} {s : String} (h : goodSym ref s) :
    en_sorter ref s = some (enKey ref s) := by
  obtain ⟨-, z, hsz, -, hen⟩ := h
  rw [Option.isSome_iff_exists] at hen
  obtain ⟨en, hen⟩ := hen
  simp [en_sorter, enKey, hsz, hen]

lemma tagEn_of_good (ref : ElementRef) (l : List String) (h : ∀ s ∈ l, goodSym ref s) :
    tagEn ref l = some (l.map fun s => (s, enKey ref s)) := by
  induction l with
  | nil => rfl
  | cons s rest ih =>
    rw [List.map_cons]
    simp only [tagEn, en_sorter_of_good (h s (List.mem_cons_self s rest)),
      ih fun q hq => h q (List.mem_cons_of_mem s hq)]
    rfl

lemma getPairs_of_mem (counts : List (String × Int)) (elems : List String)
    (h : ∀ s ∈ elems, s ∈ counts.map Prod.fst) :
    getPairs counts elems = some (elems.map fun s => (s, get0 counts s)) := by
  induction elems with
  | nil => rfl
  | cons s rest ih =>
    have hsome := dictGet_isSome_of_mem (h s (List.mem_cons_self s rest))
    rw [Option.isSome_iff_exists] at hsome
    obtain ⟨c, hc⟩ := hsome
    rw [List.map_cons]
    simp only [getPairs, hc, ih fun q hq => h q (List.mem_cons_of_mem s hq)]
    simp [get0, hc]

lemma getPairs_none {counts : List (String × Int)} {elems : List String} {s : String}
    (hs : s ∈ elems) (hnot : s ∉ counts.map Prod.fst) :
    getPairs counts elems = none := by
  induction elems with
  | nil => simp at hs
  | cons a rest ih =>
    rcases List.mem_cons.mp hs with rfl | hmem
    · simp [getPairs, dictGet_of_not_mem hnot]
    · cases hc : dictGet counts a with
      | none => simp [getPairs, hc]
      | some c => simp [getPairs, hc, ih hmem]

lemma map_keys_get0 {counts : List (String × Int)} (hnd : (counts.map Prod.fst).Nodup) :
    ((counts.map Prod.fst).map fun s => (s, get0 counts s)) = counts := by
  rw [List.map_map]
  have he : ∀ p ∈ counts, ((fun s => (s, get0 counts s)) ∘ Prod.fst) p = id p := by
    intro p hp
    simp only [Function.comp_apply, id_eq, get0, dictGet_mem hnd hp, Option.getD_some]
  rw [List.map_congr_left he, List.map_id]

lemma mkSorted_ok (ref : ElementRef) {counts : List (String × Int)} {elems : List String}
    (charge : Int)
    (hmem : ∀ s ∈ elems, s ∈ counts.map Prod.fst)
    (hgood : ∀ s ∈ elems, goodSym ref s)
    (hnd : elems.Nodup) :
    ∃ g, mkSorted ref counts elems charge = Except.ok g ∧
      g.symbol_to_count = (elems.map fun s => (s, get0 counts s)) ∧
      g.charge = charge := by
  have hpairs : ∀ p ∈ elems.map fun s => (s, get0 counts s), goodSym ref p.1 := by
    intro p hp
    obtain ⟨s, hs, rfl⟩ := List.mem_map.mp hp
    exact hgood s hs
  have hndp : ((elems.map fun s => (s, get0 counts s)).map Prod.fst).Nodup := by
    rw [List.map_map]
    have : (elems.map (Prod.fst ∘ fun s => (s, get0 counts s))) = elems := List.map_id elems
    rwa [this]
  obtain ⟨zc', hloop⟩ := initLoop_str_entries ref (elems.map fun s => (s, get0 counts s))
    [] [] hpairs hndp (by simp)
  refine ⟨⟨zc', elems.map fun s => (s, get0 counts s), charge⟩, ?req, rfl, rfl⟩
  simp only [mkSorted, getPairs_of_mem counts elems hmem]
  simp only [MolecularFormula.init, hloop, List.nil_append, Except.map]

lemma sort_iupac_carbon (ref : ElementRef) (f : MolecularFormula) (hwf : f.WF ref)
    (hC : "C" ∈ f.symbol_to_count.map Prod.fst)
    (hH : "H" ∈ f.symbol_to_count.map Prod.fst) :
    ∃ g, f.sort_iupac ref = Except.ok g ∧
      g.symbol_to_count =
        (("C" :: "H" :: ((f.symbol_to_count.map Prod.fst).filter fun e =>
          decide (e ≠ "C") && decide (e ≠ "H")).insertionSort pyStrLe).map
          fun s => (s, get0 f.symbol_to_count s)) ∧
      g.charge = f.charge := by
  obtain ⟨hnd, hgood⟩ := hwf
  have hsorted_mem : ∀ s ∈ ((f.symbol_to_count.map Prod.fst).filter fun e =>
      decide (e ≠ "C") && decide (e ≠ "H")).insertionSort pyStrLe,
      s ∈ f.symbol_to_count.map Prod.fst ∧ s ≠ "C" ∧ s ≠ "H" := by
    intro s hs
    rw [List.mem_insertionSort, List.mem_filter] at hs
    refine ⟨hs.1, ?pc⟩
    have := hs.2
    simp only [Bool.and_eq_true, decide_eq_true_eq] at this
    exact this
  have hmem : ∀ s ∈ ("C" :: "H" :: ((f.symbol_to_count.map Prod.fst).filter fun e =>
      decide (e ≠ "C") && decide (e ≠ "H")).insertionSort pyStrLe),
      s ∈ f.symbol_to_count.map Prod.fst := by
    intro s hs
    rcases List.mem_cons.mp hs with rfl | hs
    · exact hC
    · rcases List.mem_cons.mp hs with rfl | hs
      · exact hH
      · exact (hsorted_mem s hs).1
  have hgood' : ∀ s ∈ ("C" :: "H" :: ((f.symbol_to_count.map Prod.fst).filter fun e =>
      decide (e ≠ "C") && decide (e ≠ "H")).insertionSort pyStrLe), goodSym ref s := by
    intro s hs
    obtain ⟨p, hp, rfl⟩ := List.mem_map.mp (hmem s hs)
    exact hgood p hp
  have hndelems : ("C" :: "H" :: ((f.symbol_to_count.map Prod.fst).filter fun e =>
      decide (e ≠ "C") && decide (e ≠ "H")).insertionSort pyStrLe).Nodup := by
    rw [List.nodup_cons, List.nodup_cons]
    refine ⟨?hc, ?hh, ?ho⟩
    · intro hmemC
      rcases List.mem_cons.mp hmemC with h | h
      · exact absurd h (by decide)
      · exact (hsorted_mem _ h).2.1 rfl
    · intro hmemH
      exact (hsorted_mem _ hmemH).2.2 rfl
    · exact (List.perm_insertionSort pyStrLe _).symm.nodup (hnd.filter _)
  obtain ⟨g, hg, hsym, hch⟩ := mkSorted_ok ref f.charge hmem hgood' hndelems
  refine ⟨g, ?goal, hsym, hch⟩
  simp only [MolecularFormula.sort_iupac]
  rw [if_pos hC]
  exact hg

lemma sort_iupac_carbon_no_hydrogen (ref : ElementRef) (f : MolecularFormula)
    (hC : "C" ∈ f.symbol_to_count.map Prod.fst)
    (hH : "H" ∉ f.symbol_to_count.map Prod.fst) :
    f.sort_iupac ref = Except.error PyErr.keyError := by
  simp only [MolecularFormula.sort_iupac]
  rw [if_pos hC]
  simp only [mkSorted,
    getPairs_none (List.mem_cons_of_mem "C" (List.mem_cons_self "H" _)) hH]

lemma sort_iupac_noncarbon (ref : ElementRef) (f : MolecularFormula) (hwf : f.WF ref)
    (hC : "C" ∉ f.symbol_to_count.map Prod.fst) :
    ∃ g, f.sort_iupac ref = Except.ok g ∧
      g.symbol_to_count =
        (((((f.symbol_to_count.map Prod.fst).map fun s => (s, enKey ref s)).insertionSort
          fun a b => a.2 ≤ b.2).map Prod.fst).map
          fun s => (s, get0 f.symbol_to_count s)) ∧
      g.charge = f.charge := by
  obtain ⟨hnd, hgood⟩ := hwf
  have hgoodk : ∀ s ∈ f.symbol_to_count.map Prod.fst, goodSym ref s := by
    intro s hs
    obtain ⟨p, hp, rfl⟩ := List.mem_map.mp hs
    exact hgood p hp
  have htag := tagEn_of_good ref (f.symbol_to_count.map Prod.fst) hgoodk
  have hmemtag : ∀ p ∈ (((f.symbol_to_count.map Prod.fst).map
      fun s => (s, enKey ref s)).insertionSort fun a b => a.2 ≤ b.2),
      p.1 ∈ f.symbol_to_count.map Prod.fst := by
    intro p hp
    rw [List.mem_insertionSort] at hp
    obtain ⟨s, hs, rfl⟩ := List.mem_map.mp hp
    exact hs
  have hmem : ∀ s ∈ ((((f.symbol_to_count.map Prod.fst).map
      fun s => (s, enKey ref s)).insertionSort fun a b => a.2 ≤ b.2).map Prod.fst),
      s ∈ f.symbol_to_count.map Prod.fst := by
    intro s hs
    obtain ⟨p, hp, rfl⟩ := List.mem_map.mp hs
    exact hmemtag p hp
  have hkeystag : ((((f.symbol_to_count.map Prod.fst).map
      fun s => (s, enKey ref s)).insertionSort fun a b => a.2 ≤ b.2).map Prod.fst).Perm
      (f.symbol_to_count.map Prod.fst) := by
    have h1 := (List.perm_insertionSort (fun a b : String × WithTop ℚ => a.2 ≤ b.2)
      ((f.symbol_to_count.map Prod.fst).map fun s => (s, enKey ref s))).map Prod.fst
    have h2 : (((f.symbol_to_count.map Prod.fst).map
        fun s => (s, enKey ref s)).map Prod.fst) = f.symbol_to_count.map Prod.fst := by
      rw [List.map_map]
      exact List.map_id _
    rwa [h2] at h1
  have hndelems : ((((f.symbol_to_count.map Prod.fst).map
      fun s => (s, enKey ref s)).insertionSort fun a b => a.2 ≤ b.2).map Prod.fst).Nodup :=
    hkeystag.symm.nodup hnd
  obtain ⟨g, hg, hsym, hch⟩ := mkSorted_ok ref f.charge hmem
    (fun s hs => hgoodk s (hmem s hs)) hndelems
  refine ⟨g, ?goal, hsym, hch⟩
  simp only [MolecularFormula.sort_iupac]
  rw [if_neg hC]
  simp only [htag]
  exact hg

lemma filter_of_map {α β : Type} (f : α → β) (p : β → Bool) (l : List α) :
    (l.map f).filter p = (l.filter fun x => p (f x)).map f := by
  induction l with
  | nil => rfl
  | cons a l ih =>
    rw [List.map_cons]
    by_cases h : p (f a) = true
    · simp [List.filter_cons, h, ih]
    · simp [List.filter_cons, h, ih]

lemma initLoop_append (ref : ElementRef) (l1 l2 : List (Key × Int)) :
    ∀ st : List (Int × Int) × List (String × Int),
      initLoop ref (l1 ++ l2) st =
        match initLoop ref l1 st with
        | Except.error e => Except.error e
        | Except.ok st' => initLoop ref l2 st' := by
  induction l1 with
  | nil =>
    intro st
    simp [initLoop]
  | cons e rest ih =>
    intro st
    rw [List.cons_append]
    cases hs : initStep ref st e with
    | error err => simp [initLoop, hs]
    | ok st' => simp [initLoop, hs, ih st']

lemma carbon_elems_mem_iff {keys : List String} (hC : "C" ∈ keys) (hH : "H" ∈ keys)
    (x : String) :
    (x ∈ "C" :: "H" :: (keys.filter fun e =>
      decide (e ≠ "C") && decide (e ≠ "H")).insertionSort pyStrLe) ↔ x ∈ keys := by
  constructor
  · intro hx
    rcases List.mem_cons.mp hx with rfl | hx
    · exact hC
    · rcases List.mem_cons.mp hx with rfl | hx
      · exact hH
      · rw [List.mem_insertionSort, List.mem_filter] at hx
        exact hx.1
  · intro hx
    by_cases hxc : x = "C"
    · rw [hxc]
      exact List.mem_cons_self _ _
    · by_cases hxh : x = "H"
      · rw [hxh]
        exact List.mem_cons_of_mem _ (List.mem_cons_self _ _)
      · apply List.mem_cons_of_mem
        apply List.mem_cons_of_mem
        rw [List.mem_insertionSort, List.mem_filter]
        exact ⟨hx, by simp [hxc, hxh]⟩

lemma carbon_elems_nodup {keys : List String} (hnd : keys.Nodup) :
    ("C" :: "H" :: (keys.filter fun e =>
      decide (e ≠ "C") && decide (e ≠ "H")).insertionSort pyStrLe).Nodup := by
  have hmem : ∀ s ∈ (keys.filter fun e =>
      decide (e ≠ "C") && decide (e ≠ "H")).insertionSort pyStrLe,
      s ≠ "C" ∧ s ≠ "H" := by
    intro s hs
    rw [List.mem_insertionSort, List.mem_filter] at hs
    have := hs.2
    simp only [Bool.and_eq_true, decide_eq_true_eq] at this
    exact this
  rw [List.nodup_cons, List.nodup_cons]
  refine ⟨?hc, ?hh, ?ho⟩
  · intro hmemC
    rcases List.mem_cons.mp hmemC with h | h
    · exact absurd h (by decide)
    · exact (hmem _ h).1 rfl
  · intro hmemH
    exact (hmem _ hmemH).2 rfl
  · exact (List.perm_insertionSort pyStrLe _).symm.nodup (hnd.filter _)

lemma carbon_elems_perm {keys : List String} (hnd : keys.Nodup)
    (hC : "C" ∈ keys) (hH : "H" ∈ keys) :
    ("C" :: "H" :: (keys.filter fun e =>
      decide (e ≠ "C") && decide (e ≠ "H")).insertionSort pyStrLe).Perm keys :=
  (List.perm_ext_iff_of_nodup (carbon_elems_nodup hnd) hnd).mpr
    (carbon_elems_mem_iff hC hH)

lemma sortedKeys_perm (ref : ElementRef) (keys : List String) :
    ((((keys.map fun s => (s, enKey ref s)).insertionSort
      fun a b => a.2 ≤ b.2).map Prod.fst)).Perm keys := by
  have h1 := (List.perm_insertionSort (fun a b : String × WithTop ℚ => a.2 ≤ b.2)
    (keys.map fun s => (s, enKey ref s))).map Prod.fst
  have h2 : ((keys.map fun s => (s, enKey ref s)).map Prod.fst) = keys := by
    rw [List.map_map]
    exact List.map_id keys
  rwa [h2] at h1

lemma mem_tagged_snd {ref : ElementRef} {keys : List String} {p : String × WithTop ℚ}
    (hp : p ∈ keys.map fun s => (s, enKey ref s)) : p.2 = enKey ref p.1 := by
  obtain ⟨s, hs, heq⟩ := List.mem_map.mp hp
  rw [← heq]

lemma map_fst_pairFn (counts : List (String × Int)) (l : List String) :
    ((l.map fun s => (s, get0 counts s)).map Prod.fst) = l := by
  rw [List.map_map]
  exact List.map_id l

lemma sort_eq_sort_iupac (ref : ElementRef) (f : MolecularFormula) :
    f.sort ref "iupac" = f.sort_iupac ref := by
  simp [MolecularFormula.sort]

lemma sort_ok_perm {ref : ElementRef} {f g : MolecularFormula} (hwf : f.WF ref)
    (h : f.sort ref "iupac" = Except.ok g) :
    g.symbol_to_count.Perm f.symbol_to_count ∧ g.charge = f.charge := by
  rw [sort_eq_sort_iupac] at h
  by_cases hC : "C" ∈ f.symbol_to_count.map Prod.fst
  · by_cases hH : "H" ∈ f.symbol_to_count.map Prod.fst
    · obtain ⟨g0, hg0, hsym, hch⟩ := sort_iupac_carbon ref f hwf hC hH
      rw [hg0] at h
      injection h with h
      subst h
      refine ⟨?perm, hch⟩
      rw [hsym]
      have hp := (carbon_elems_perm hwf.1 hC hH).map
        fun s => (s, get0 f.symbol_to_count s)
      rwa [map_keys_get0 hwf.1] at hp
    · rw [sort_iupac_carbon_no_hydrogen ref f hC hH] at h
      exact Except.noConfusion h
  · obtain ⟨g0, hg0, hsym, hch⟩ := sort_iupac_noncarbon ref f hwf hC
    rw [hg0] at h
    injection h with h
    subst h
    refine ⟨?perm2, hch⟩
    rw [hsym]
    have hp := (sortedKeys_perm ref (f.symbol_to_count.map Prod.fst)).map
      fun s => (s, get0 f.symbol_to_count s)
    rwa [map_keys_get0 hwf.1] at hp

lemma WF_of_sort_ok {ref : ElementRef} {f g : MolecularFormula} (hwf : f.WF ref)
    (h : f.sort ref "iupac" = Except.ok g) : g.WF ref := by
  obtain ⟨hperm, -⟩ := sort_ok_perm hwf h
  constructor
  · exact ((hperm.map Prod.fst).symm).nodup hwf.1
  · intro p hp
    exact hwf.2 p (hperm.subset hp)

lemma sorted_sortedKeys (ref : ElementRef) (keys : List String) :
    List.Sorted (fun a b => enKey ref a ≤ enKey ref b)
      (((keys.map fun s => (s, enKey ref s)).insertionSort
        fun a b => a.2 ≤ b.2).map Prod.fst) := by
  have hsorted := List.sorted_insertionSort (fun a b : String × WithTop ℚ => a.2 ≤ b.2)
    (keys.map fun s => (s, enKey ref s))
  show List.Pairwise _ _
  rw [List.pairwise_map]
  refine List.Pairwise.imp_of_mem ?conv hsorted
  intro a b ha hb hab
  rw [← mem_tagged_snd ((List.mem_insertionSort _).mp ha),
    ← mem_tagged_snd ((List.mem_insertionSort _).mp hb)]
  exact hab

lemma filter_sortedKeys (ref : ElementRef) (keys : List String) (v : WithTop ℚ) :
    ((((keys.map fun s => (s, enKey ref s)).insertionSort fun a b => a.2 ≤ b.2).map
      Prod.fst).filter fun s => decide (enKey ref s = v)) =
      keys.filter fun s => decide (enKey ref s = v) := by
  have step1 := filter_of_map (Prod.fst : String × WithTop ℚ → String)
    (fun s => decide (enKey ref s = v))
    ((keys.map fun s => (s, enKey ref s)).insertionSort fun a b => a.2 ≤ b.2)
  have step2 : (((keys.map fun s => (s, enKey ref s)).insertionSort
      fun a b => a.2 ≤ b.2).filter fun x => decide (enKey ref x.1 = v)) =
      ((keys.map fun s => (s, enKey ref s)).insertionSort
        fun a b => a.2 ≤ b.2).filter fun x => decide (x.2 = v) := by
    apply List.filter_congr
    intro x hx
    rw [mem_tagged_snd ((List.mem_insertionSort _).mp hx)]
  have step3 := filter_insertionSort (Prod.snd : String × WithTop ℚ → WithTop ℚ) v
    (keys.map fun s => (s, enKey ref s))
  have step4 : ((keys.map fun s => (s, enKey ref s)).filter fun x => decide (x.2 = v)) =
      (keys.map fun s => (s, enKey ref s)).filter fun x => decide (enKey ref x.1 = v) := by
    apply List.filter_congr
    intro x hx
    rw [mem_tagged_snd hx]
  have step5 := filter_of_map (fun s => (s, enKey ref s))
    (fun x : String × WithTop ℚ => decide (enKey ref x.1 = v)) keys
  have step6 : ((keys.filter fun s => decide (enKey ref ((fun s =>
      (s, enKey ref s)) s).1 = v)).map fun s => (s, enKey ref s)).map Prod.fst =
      keys.filter fun s => decide (enKey ref s = v) := by
    rw [List.map_map]
    exact List.map_id _
  rw [step1, step2, step3, step4, step5, step6]

/-! ### The claims -/

/-- Claim C1 (code bug).  The claim says that with carbon present the
`"iupac"` sort succeeds and simply skips hydrogen when absent.  The source
instead always builds `["C", "H"] + sorted(...)` and then evaluates
`counts["H"]`, so sorting a carbon-containing, hydrogen-free formula (here
`{C: 1, O: 2}`, i.e. CO₂) raises `KeyError` — contradicting both the claim
and the method's own docstring. -/
theorem sort_iupac_carbon_without_hydrogen_raises :
    (MolecularFormula.init demoRef [(Key.str "C", 1), (Key.str "O", 2)] 0).bind
      (fun f => f.sort demoRef "iupac") = Except.error PyErr.keyError := by
  decide

/-- Claim C3 (code bug).  Element and charge rendering work as claimed
except for the negative-charge sign glyph: the source file's bytes are the
UTF-8 mojibake `U+00E2 U+20AC U+201C` (`â€“`), not an en-dash-style minus.
So `charge = -2` renders a trailing `\textsuperscript{2â€“}`, not the
claimed `\textsuperscript{2–}`. -/
theorem latex_negative_charge_glyph_mojibake :
    (⟨[(8, 1)], [("O", 1)], -2⟩ : MolecularFormula).latex =
        "O\\textsuperscript\x7b2â€“\x7d" ∧
      "O\\textsuperscript\x7b2â€“\x7d" ≠
        "O\\textsuperscript\x7b2–\x7d" :=
  ⟨rfl, by decide⟩

/-- Claim C4, counterexample.  Constructing from `{O: 2, H: 1, C: 1}` with
charge `0` and sorting `"iupac"` does *not* render `"CHO"`: oxygen has
count 2, so it receives a subscript. -/
theorem sort_latex_CHO2_ne_CHO :
    (((MolecularFormula.init demoRef
        [(Key.str "O", 2), (Key.str "H", 1), (Key.str "C", 1)] 0).bind
      fun f => f.sort demoRef "iupac").map MolecularFormula.latex) ≠
      Except.ok "CHO" := by
  decide

/-- Claim C4, amended.  Constructing from `{O: 2, H: 1, C: 1}` with charge
`0` and sorting `"iupac"` yields composition order `[C, H, O]`, and
rendering yields exactly `CHO\textsubscript{2}` (the oxygen count is 2, so
the `"CHO"` of the claim would require `{O: 1}`). -/
theorem sort_latex_CHO2_order_and_render :
    ((MolecularFormula.init demoRef
        [(Key.str "O", 2), (Key.str "H", 1), (Key.str "C", 1)] 0).bind
      fun f => f.sort demoRef "iupac") = Except.ok
        ⟨[(6, 1), (1, 1), (8, 2)], [("C", 1), ("H", 1), ("O", 2)], 0⟩ ∧
      (⟨[(6, 1), (1, 1), (8, 2)], [("C", 1), ("H", 1), ("O", 2)], 0⟩ :
        MolecularFormula).latex = "CHO\\textsubscript\x7b2\x7d" :=
  ⟨by decide, by decide⟩

/-- Claim C7 (confirmed).  Constructing from atomic-number keys and from
the equivalent symbol keys (same elements, same counts, same order, same
charge) renders identically: the constructor loop produces identical
internal state at every step. -/
theorem init_symbol_number_same_latex (ref : ElementRef)
    (entries : List (Int × String × Int)) (charge : Int)
    (h : ∀ e ∈ entries, ref.z_to_symbol e.1 = some (pyNormalize e.2.1) ∧
      ref.symbol_to_z (pyNormalize e.2.1) = some e.1) :
    ((MolecularFormula.init ref (entries.map fun e => (Key.int e.1, e.2.2)) charge).map
        MolecularFormula.latex) =
      (MolecularFormula.init ref (entries.map fun e => (Key.str e.2.1, e.2.2)) charge).map
        MolecularFormula.latex := by
  unfold MolecularFormula.init
  rw [initLoop_lockstep ref entries ([], []) h]

/-- Witness for C7: sodium chloride built from `{11: 1, 17: 1}` and from
`{"Na": 1, "Cl": 1}` renders identically. -/
theorem init_symbol_number_same_latex_witness :
    (∀ e ∈ [((11 : Int), "Na", (1 : Int)), ((17 : Int), "Cl", (1 : Int))],
      demoRef.z_to_symbol e.1 = some (pyNormalize e.2.1) ∧
        demoRef.symbol_to_z (pyNormalize e.2.1) = some e.1) ∧
      ((MolecularFormula.init demoRef
          ([((11 : Int), "Na", (1 : Int)), ((17 : Int), "Cl", (1 : Int))].map
            fun e => (Key.int e.1, e.2.2)) 0).map MolecularFormula.latex) =
        (MolecularFormula.init demoRef
          ([((11 : Int), "Na", (1 : Int)), ((17 : Int), "Cl", (1 : Int))].map
            fun e => (Key.str e.2.1, e.2.2)) 0).map MolecularFormula.latex := by
  have h : ∀ e ∈ [((11 : Int), "Na", (1 : Int)), ((17 : Int), "Cl", (1 : Int))],
      demoRef.z_to_symbol e.1 = some (pyNormalize e.2.1) ∧
        demoRef.symbol_to_z (pyNormalize e.2.1) = some e.1 := by
    intro e he
    fin_cases he
    · exact ⟨rfl, rfl⟩
    · exact ⟨rfl, rfl⟩
  exact ⟨h, init_symbol_number_same_latex demoRef
    [((11 : Int), "Na", (1 : Int)), ((17 : Int), "Cl", (1 : Int))] 0 h⟩

/-- Claim C8 (confirmed).  If any construction key fails to resolve through
the element reference (an unknown atomic number, or an unknown symbol after
normalisation), construction raises `KeyError` (the spec's
`UnknownElement`) and produces no formula. -/
theorem init_unknown_key_raises (ref : ElementRef) (atom_count : List (Key × Int))
    (charge : Int) (h : ∃ e ∈ atom_count, badKey ref e.1) :
    MolecularFormula.init ref atom_count charge = Except.error PyErr.keyError := by
  unfold MolecularFormula.init
  rw [initLoop_error_of_bad ref atom_count ([], []) h]
  rfl

/-- Witness for C8: atomic number `9999` is unknown. -/
theorem init_unknown_key_raises_witness :
    (∃ e ∈ [(Key.int 9999, (1 : Int))], badKey demoRef e.1) ∧
      MolecularFormula.init demoRef [(Key.int 9999, 1)] 0 =
        Except.error PyErr.keyError :=
  ⟨⟨(Key.int 9999, 1), List.mem_singleton_self _, rfl⟩,
    init_unknown_key_raises demoRef [(Key.int 9999, 1)] 0
      ⟨(Key.int 9999, 1), List.mem_singleton_self _, rfl⟩⟩

/-- Claim C9 (confirmed).  Any sort-method value other than `"iupac"`
raises `ValueError` (the spec's `InvalidSortMethod`).  `sort` is a pure
function of the receiver in this embedding, so the original formula is
untouched by the failed call. -/
theorem sort_invalid_method_raises (ref : ElementRef) (f : MolecularFormula)
    (method : String) (h : method ≠ "iupac") :
    f.sort ref method = Except.error PyErr.valueError := by
  simp only [MolecularFormula.sort, if_neg h]

/-- Witness for C9: the method string `"alphabetical"`. -/
theorem sort_invalid_method_raises_witness :
    "alphabetical" ≠ "iupac" ∧
      fDemoWater.sort demoRef "alphabetical" = Except.error PyErr.valueError :=
  ⟨by decide, sort_invalid_method_raises demoRef fDemoWater "alphabetical" (by decide)⟩

/-- Claim C2 (confirmed).  For a well-formed carbon-free formula, sorting
with `"iupac"` succeeds and returns the same composition reordered
ascending by Pauling-electronegativity key, where an undefined (NaN)
electronegativity becomes `float("inf")` (`⊤`) and therefore sorts after
every defined value; the sort is stable: for every key value, the elements
attaining it keep their relative input order. -/
theorem sort_iupac_noncarbon_en_order (ref : ElementRef) (f : MolecularFormula)
    (hwf : f.WF ref) (hC : "C" ∉ f.symbol_to_count.map Prod.fst) :
    ∃ g, f.sort ref "iupac" = Except.ok g ∧
      g.charge = f.charge ∧
      g.symbol_to_count.Perm f.symbol_to_count ∧
      List.Sorted (fun a b => enKey ref a ≤ enKey ref b)
        (g.symbol_to_count.map Prod.fst) ∧
      ∀ v : WithTop ℚ,
        ((g.symbol_to_count.map Prod.fst).filter fun s => decide (enKey ref s = v)) =
          (f.symbol_to_count.map Prod.fst).filter fun s => decide (enKey ref s = v) := by
  obtain ⟨g, hg, hsym, hch⟩ := sort_iupac_noncarbon ref f hwf hC
  have hkeys : g.symbol_to_count.map Prod.fst =
      (((f.symbol_to_count.map Prod.fst).map fun s => (s, enKey ref s)).insertionSort
        fun a b => a.2 ≤ b.2).map Prod.fst := by
    rw [hsym, map_fst_pairFn]
  refine ⟨g, by rw [sort_eq_sort_iupac]; exact hg, hch, ?perm, ?sorted, ?stable⟩
  · rw [hsym]
    have hp := (sortedKeys_perm ref (f.symbol_to_count.map Prod.fst)).map
      fun s => (s, get0 f.symbol_to_count s)
    rwa [map_keys_get0 hwf.1] at hp
  · rw [hkeys]
    exact sorted_sortedKeys ref (f.symbol_to_count.map Prod.fst)
  · intro v
    rw [hkeys]
    exact filter_sortedKeys ref (f.symbol_to_count.map Prod.fst) v

/-- Witness for C2: the carbon-free fixture `{O: 1, H: 2, He: 1}` (helium
has an undefined electronegativity). -/
theorem sort_iupac_noncarbon_en_order_witness :
    (fDemoWater.WF demoRef ∧ "C" ∉ fDemoWater.symbol_to_count.map Prod.fst) ∧
      ∃ g, fDemoWater.sort demoRef "iupac" = Except.ok g ∧
        g.charge = fDemoWater.charge ∧
        g.symbol_to_count.Perm fDemoWater.symbol_to_count ∧
        List.Sorted (fun a b => enKey demoRef a ≤ enKey demoRef b)
          (g.symbol_to_count.map Prod.fst) ∧
        ∀ v : WithTop ℚ,
          ((g.symbol_to_count.map Prod.fst).filter fun s =>
            decide (enKey demoRef s = v)) =
            (fDemoWater.symbol_to_count.map Prod.fst).filter fun s =>
              decide (enKey demoRef s = v) := by
  have hwf : fDemoWater.WF demoRef := by
    refine ⟨by decide, ?good⟩
    intro p hp
    simp only [fDemoWater] at hp
    fin_cases hp
    · exact ⟨rfl, 8, rfl, rfl, rfl⟩
    · exact ⟨rfl, 1, rfl, rfl, rfl⟩
    · exact ⟨rfl, 2, rfl, rfl, rfl⟩
  have hc : "C" ∉ fDemoWater.symbol_to_count.map Prod.fst := by decide
  exact ⟨⟨hwf, hc⟩, sort_iupac_noncarbon_en_order demoRef fDemoWater hwf hc⟩

/-- Claim C5 (confirmed).  Whenever `"iupac"` sorting succeeds it returns a
fresh formula with the same multiset of (symbol, count) pairs and the same
charge.  `sort` is a pure function of the receiver in this embedding, so
the receiver's composition order, counts, and charge are untouched. -/
theorem sort_iupac_preserves_multiset_and_charge (ref : ElementRef)
    (f g : MolecularFormula) (hwf : f.WF ref)
    (h : f.sort ref "iupac" = Except.ok g) :
    g.symbol_to_count.Perm f.symbol_to_count ∧ g.charge = f.charge :=
  sort_ok_perm hwf h

/-- Witness for C5: the carbon fixture `{O: 1, H: 4, C: 1}`. -/
theorem sort_iupac_preserves_multiset_and_charge_witness :
    (fDemoCarbon.WF demoRef ∧
      fDemoCarbon.sort demoRef "iupac" = Except.ok gDemoCarbon) ∧
      gDemoCarbon.symbol_to_count.Perm fDemoCarbon.symbol_to_count ∧
        gDemoCarbon.charge = fDemoCarbon.charge := by
  have hwf : fDemoCarbon.WF demoRef := by
    refine ⟨by decide, ?good⟩
    intro p hp
    simp only [fDemoCarbon] at hp
    fin_cases hp
    · exact ⟨rfl, 8, rfl, rfl, rfl⟩
    · exact ⟨rfl, 1, rfl, rfl, rfl⟩
    · exact ⟨rfl, 6, rfl, rfl, rfl⟩
  have hok : fDemoCarbon.sort demoRef "iupac" = Except.ok gDemoCarbon := by decide
  exact ⟨⟨hwf, hok⟩,
    sort_iupac_preserves_multiset_and_charge demoRef fDemoCarbon gDemoCarbon hwf hok⟩

/-- Claim C6 (confirmed).  Sorting is idempotent on the composition order:
if `"iupac"` sorting succeeds, sorting the result again succeeds and leaves
the symbol order unchanged. -/
theorem sort_iupac_idempotent_order (ref : ElementRef) (f g : MolecularFormula)
    (hwf : f.WF ref) (h : f.sort ref "iupac" = Except.ok g) :
    ∃ g', g.sort ref "iupac" = Except.ok g' ∧
      g'.symbol_to_count.map Prod.fst = g.symbol_to_count.map Prod.fst := by
  have hwg := WF_of_sort_ok hwf h
  rw [sort_eq_sort_iupac] at h
  by_cases hC : "C" ∈ f.symbol_to_count.map Prod.fst
  · by_cases hH : "H" ∈ f.symbol_to_count.map Prod.fst
    · obtain ⟨g0, hg0, hsym, hch⟩ := sort_iupac_carbon ref f hwf hC hH
      rw [hg0] at h
      injection h with h
      subst h
      have hkeys : g0.symbol_to_count.map Prod.fst =
          "C" :: "H" :: ((f.symbol_to_count.map Prod.fst).filter fun e =>
            decide (e ≠ "C") && decide (e ≠ "H")).insertionSort pyStrLe := by
        rw [hsym, map_fst_pairFn]
      have hCg : "C" ∈ g0.symbol_to_count.map Prod.fst := by
        rw [hkeys]
        exact List.mem_cons_self _ _
      have hHg : "H" ∈ g0.symbol_to_count.map Prod.fst := by
        rw [hkeys]
        exact List.mem_cons_of_mem _ (List.mem_cons_self _ _)
      obtain ⟨g', hg', hsym', hch'⟩ := sort_iupac_carbon ref g0 hwg hCg hHg
      refine ⟨g', by rw [sort_eq_sort_iupac]; exact hg', ?keq⟩
      rw [hsym', map_fst_pairFn]
      have hfilter : ((g0.symbol_to_count.map Prod.fst).filter fun e =>
          decide (e ≠ "C") && decide (e ≠ "H")) =
          ((f.symbol_to_count.map Prod.fst).filter fun e =>
            decide (e ≠ "C") && decide (e ≠ "H")).insertionSort pyStrLe := by
        rw [hkeys, List.filter_cons_of_neg (by decide),
          List.filter_cons_of_neg (by decide)]
        apply List.filter_eq_self.mpr
        intro a ha
        rw [List.mem_insertionSort, List.mem_filter] at ha
        exact ha.2
      rw [hfilter, (List.sorted_insertionSort pyStrLe _).insertionSort_eq, hkeys]
    · rw [sort_iupac_carbon_no_hydrogen ref f hC hH] at h
      exact Except.noConfusion h
  · obtain ⟨g0, hg0, hsym, hch⟩ := sort_iupac_noncarbon ref f hwf hC
    rw [hg0] at h
    injection h with h
    subst h
    have hkeys : g0.symbol_to_count.map Prod.fst =
        (((f.symbol_to_count.map Prod.fst).map fun s => (s, enKey ref s)).insertionSort
          fun a b => a.2 ≤ b.2).map Prod.fst := by
      rw [hsym, map_fst_pairFn]
    have hCg : "C" ∉ g0.symbol_to_count.map Prod.fst := by
      rw [hkeys]
      intro hmem
      exact hC ((sortedKeys_perm ref _).subset hmem)
    obtain ⟨g', hg', hsym', hch'⟩ := sort_iupac_noncarbon ref g0 hwg hCg
    refine ⟨g', by rw [sort_eq_sort_iupac]; exact hg', ?keq2⟩
    rw [hsym', map_fst_pairFn, hkeys]
    have htagback : ((((f.symbol_to_count.map Prod.fst).map fun s =>
        (s, enKey ref s)).insertionSort fun a b => a.2 ≤ b.2).map Prod.fst).map
          (fun s => (s, enKey ref s)) =
        ((f.symbol_to_count.map Prod.fst).map fun s => (s, enKey ref s)).insertionSort
          fun a b => a.2 ≤ b.2 := by
      rw [List.map_map]
      have hcong : ∀ p ∈ ((f.symbol_to_count.map Prod.fst).map fun s =>
          (s, enKey ref s)).insertionSort fun a b => a.2 ≤ b.2,
          ((fun s => (s, enKey ref s)) ∘ Prod.fst) p = id p := by
        intro p hp
        have h2 := mem_tagged_snd ((List.mem_insertionSort _).mp hp)
        simp only [Function.comp_apply, id_eq]
        rw [← h2]
      rw [List.map_congr_left hcong, List.map_id]
    rw [htagback, (List.sorted_insertionSort _ _).insertionSort_eq]

/-- Witness for C6: sorting the already-sorted carbon fixture keeps the
order `[C, H, O]`. -/
theorem sort_iupac_idempotent_order_witness :
    (fDemoCarbon.WF demoRef ∧
      fDemoCarbon.sort demoRef "iupac" = Except.ok gDemoCarbon) ∧
      ∃ g', gDemoCarbon.sort demoRef "iupac" = Except.ok g' ∧
        g'.symbol_to_count.map Prod.fst = gDemoCarbon.symbol_to_count.map Prod.fst := by
  have hwf : fDemoCarbon.WF demoRef := by
    refine ⟨by decide, ?good⟩
    intro p hp
    simp only [fDemoCarbon] at hp
    fin_cases hp
    · exact ⟨rfl, 8, rfl, rfl, rfl⟩
    · exact ⟨rfl, 1, rfl, rfl, rfl⟩
    · exact ⟨rfl, 6, rfl, rfl, rfl⟩
  have hok : fDemoCarbon.sort demoRef "iupac" = Except.ok gDemoCarbon := by decide
  exact ⟨⟨hwf, hok⟩, sort_iupac_idempotent_order demoRef fDemoCarbon gDemoCarbon hwf hok⟩

/-- Claim C10 (confirmed).  Appending an entry whose key resolves to an
element already present raises no error: both internal views get the new
count by in-place overwrite, and the merged element keeps the position of
its first occurrence in each view. -/
theorem init_duplicate_resolved_key_overwrites (ref : ElementRef)
    (input : List (Key × Int)) (charge c : Int) (k : Key) (z : Int) (s : String)
    (f : MolecularFormula)
    (hinit : MolecularFormula.init ref input charge = Except.ok f)
    (hres : resolvesTo ref k z s)
    (hz : z ∈ f.z_to_count.map Prod.fst)
    (hs : s ∈ f.symbol_to_count.map Prod.fst) :
    MolecularFormula.init ref (input ++ [(k, c)]) charge = Except.ok
      { z_to_count := f.z_to_count.map fun p => if p.1 = z then (p.1, c) else p,
        symbol_to_count := f.symbol_to_count.map fun p => if p.1 = s then (p.1, c) else p,
        charge := charge } := by
  obtain ⟨hndz, hnds⟩ := init_nodup hinit
  unfold MolecularFormula.init at hinit ⊢
  cases hl : initLoop ref input ([], []) with
  | error e =>
    rw [hl] at hinit
    exact Except.noConfusion hinit
  | ok st =>
    rw [hl] at hinit
    simp only [Except.map, Except.ok.injEq] at hinit
    have hst1 : st.1 = f.z_to_count := by rw [← hinit]
    have hst2 : st.2 = f.symbol_to_count := by rw [← hinit]
    have hstep : initStep ref st (k, c) =
        Except.ok (dictInsert st.1 z c, dictInsert st.2 s c) := by
      cases k with
      | int z' =>
        obtain ⟨rfl, hzs⟩ := hres
        simp [initStep, hzs]
      | str t =>
        obtain ⟨hnorm, hsz⟩ := hres
        simp [initStep, hnorm, hsz]
    rw [initLoop_append ref input [(k, c)], hl]
    simp only [initLoop, hstep]
    rw [hst1, hst2, dictInsert_of_mem c hndz hz, dictInsert_of_mem c hnds hs]
    rfl

/-- Witness for C10: `{1: 2}` followed by the duplicate key `"H"` with
count 3 — the later entry overwrites in place in both views. -/
theorem init_duplicate_resolved_key_overwrites_witness :
    (MolecularFormula.init demoRef [(Key.int 1, 2)] 0 =
        Except.ok ⟨[(1, 2)], [("H", 2)], 0⟩ ∧
      resolvesTo demoRef (Key.str "H") 1 "H" ∧
      1 ∈ (⟨[(1, 2)], [("H", 2)], 0⟩ : MolecularFormula).z_to_count.map Prod.fst ∧
      "H" ∈ (⟨[(1, 2)], [("H", 2)], 0⟩ :
        MolecularFormula).symbol_to_count.map Prod.fst) ∧
      MolecularFormula.init demoRef ([(Key.int 1, 2)] ++ [(Key.str "H", 3)]) 0 =
        Except.ok
          { z_to_count := (⟨[(1, 2)], [("H", 2)], 0⟩ :
              MolecularFormula).z_to_count.map fun p =>
                if p.1 = 1 then (p.1, 3) else p,
            symbol_to_count := (⟨[(1, 2)], [("H", 2)], 0⟩ :
              MolecularFormula).symbol_to_count.map fun p =>
                if p.1 = "H" then (p.1, 3) else p,
            charge := 0 } := by
  have hinit : MolecularFormula.init demoRef [(Key.int 1, 2)] 0 =
      Except.ok ⟨[(1, 2)], [("H", 2)], 0⟩ := by decide
  have hres : resolvesTo demoRef (Key.str "H") 1 "H" := ⟨rfl, rfl⟩
  exact ⟨⟨hinit, hres, by decide, by decide⟩,
    init_duplicate_resolved_key_overwrites demoRef [(Key.int 1, 2)] 0 3
      (Key.str "H") 1 "H" ⟨[(1, 2)], [("H", 2)], 0⟩ hinit hres (by decide) (by decide)⟩

end Chemiverse
